import Mathlib

/-!
Circuit bytes: the Go file `vars/byte.go`.

A shallow embedding of the Go package `vars` (file `vars/byte.go`) and the
properties of its constructors.

Conventions of the embedding.

* A Go `byte` is a `Nat` below `256`, a Go `uint64` a `Nat` below `2 ^ 64`;
  a conversion that truncates (`byte(v >> 8)`) is written with an explicit
  `% 256`.  A Go `int` is an `Int` (no value in this file leaves the 64-bit
  range: the largest magnitude is a slice length plus 32).
* A slice `[]T` is a `List T` (the nil slice and the empty slice are both `[]`).
* A fixed array `[32]T` is a list of length exactly 32 (`Arr32 T`).
* Every index expression is bounds-checked as in Go: a function that indexes
  returns `Except Panic _`, and an out-of-range index is `Except.error`.
-/

namespace Vars

/-- Run-time panic of the Go program: `index out of range [index] with length length`. -/
inductive Panic where
  | indexOutOfRange (index : Int) (length : Nat)
deriving DecidableEq, Repr

/-- The gnark type `frontend.Variable`, which is `interface{}`.  Its zero value is
`nil`; the only dynamic type this package stores in it is Go `int`. -/
inductive Variable where
  | nil
  | int (v : Int)
deriving DecidableEq, Repr

/-- The Go struct `Byte`: `type Byte struct { Value frontend.Variable }`. -/
structure Byte where
  Value : Variable
deriving DecidableEq, Repr

/-- The Go package variable `ZERO_BYTE`, `var ZERO_BYTE = Byte{Value: 0}`. -/
def ZERO_BYTE : Byte := Byte.mk (Variable.int 0)

/-- Storage of exactly `n` cells: a Go array `[n]T`, or a slice of length `n`
sharing the array's storage. -/
abbrev Cells (α : Type) (n : Nat) : Type := { l : List α // l.length = n }

/-- The Go fixed array type `[32]T`. -/
abbrev Arr32 (α : Type) : Type := Cells α 32

/-- The zero value of the Go array `[n]T`, every cell holding the zero value `z` of `T`. -/
def Cells.zero {α : Type} (n : Nat) (z : α) : Cells α n :=
  ⟨List.replicate n z, List.length_replicate n z⟩

/-- The Go index expression `s[i]` on a slice, with its bounds check. -/
def sliceIndex {α : Type} (s : List α) (i : Int) : Except Panic α :=
  if 0 ≤ i then
    match s.get? i.toNat with
    | some a => Except.ok a
    | none => Except.error (Panic.indexOutOfRange i s.length)
  else Except.error (Panic.indexOutOfRange i s.length)

/-- The Go index expression `a[i]` on an array or slice of `n` cells, with its bounds check. -/
def Cells.index {α : Type} {n : Nat} (a : Cells α n) (i : Int) : Except Panic α :=
  sliceIndex a.val i

/-- The Go assignment `a[i] = v` on an array or slice of `n` cells, with its bounds check. -/
def Cells.assign {α : Type} {n : Nat} (a : Cells α n) (i : Int) (v : α) :
    Except Panic (Cells α n) :=
  if 0 ≤ i ∧ i < (n : Int) then
    Except.ok ⟨a.val.set i.toNat v, by rw [List.length_set]; exact a.property⟩
  else Except.error (Panic.indexOutOfRange i n)

/-- The Go counted loop `for i := 0; i < n; i++ { body }` acting on the state `init`;
the body receives the Go `int` counter and may panic. -/
def forRange {σ : Type} (n : Nat) (body : Int → σ → Except Panic σ) (init : σ) :
    Except Panic σ :=
  List.foldlM (fun (s : σ) (i : Nat) => body (i : Int) s) init (List.range n)

/-- Source `NewByte`: `return Byte{Value: int(i1)}`. -/
def NewByte (i1 : Nat) : Byte := Byte.mk (Variable.int (i1 : Int))

/-- Source `NewBytes`: starting from the nil slice, appends `Byte{Value: int(i1[i])}`
for `i` from `0` to `len(i1) - 1`. -/
def NewBytes (i1 : List Nat) : Except Panic (List Byte) :=
  forRange i1.length
    (fun i result => do
      let x ← sliceIndex i1 i
      pure (result ++ [Byte.mk (Variable.int (x : Int))]))
    []

/-- Source `NewBytesArray`: appends `NewBytes(i1[i])` for every `i`. -/
def NewBytesArray (i1 : List (List Nat)) : Except Panic (List (List Byte)) :=
  forRange i1.length
    (fun i result => do
      let x ← sliceIndex i1 i
      let y ← NewBytes x
      pure (result ++ [y]))
    []

/-- Source `NewBytes32`: `var result [32]Byte`, then `result[i] = Byte{Value: int(i1[i])}`
for `i` from `0` to `31`.  The zero value of `Byte` has a nil `Value`. -/
def NewBytes32 (i1 : Arr32 Nat) : Except Panic (Arr32 Byte) :=
  forRange 32
    (fun i result => do
      let x ← Cells.index i1 i
      Cells.assign result i (Byte.mk (Variable.int (x : Int))))
    (Cells.zero 32 (Byte.mk Variable.nil))

/-- Source `NewBytes32Array`: appends `NewBytes32(i1[i])` for every `i`. -/
def NewBytes32Array (i1 : List (Arr32 Nat)) : Except Panic (List (Arr32 Byte)) :=
  forRange i1.length
    (fun i result => do
      let x ← sliceIndex i1 i
      let y ← NewBytes32 x
      pure (result ++ [y]))
    []

/-- Go standard library `binary.LittleEndian.PutUint64(b, v)`:
`_ = b[7]` (the early bounds check), then `b[k] = byte(v >> (8*k))` for `k = 0..7`. -/
def PutUint64 {n : Nat} (b : Cells Nat n) (v : Nat) : Except Panic (Cells Nat n) := do
  let _ ← Cells.index b 7
  let b ← Cells.assign b 0 (v % 256)
  let b ← Cells.assign b 1 ((v >>> 8) % 256)
  let b ← Cells.assign b 2 ((v >>> 16) % 256)
  let b ← Cells.assign b 3 ((v >>> 24) % 256)
  let b ← Cells.assign b 4 ((v >>> 32) % 256)
  let b ← Cells.assign b 5 ((v >>> 40) % 256)
  let b ← Cells.assign b 6 ((v >>> 48) % 256)
  Cells.assign b 7 ((v >>> 56) % 256)

/-- Source `NewBytes32FromU64LE`: `var b [32]byte`, `PutUint64(b[:], i1)` (the slice
`b[:]` shares the storage of `b`), then `NewBytes32(b)`. -/
def NewBytes32FromU64LE (i1 : Nat) : Except Panic (Arr32 Byte) := do
  let b : Arr32 Nat := Cells.zero 32 0
  let b ← PutUint64 b i1
  NewBytes32 b

/-- Source `NewBytes32FromBytesLeftPad`: `var b [32]byte`,
`startOffset := 32 - len(i1) - 1`, then `b[startOffset+i] = i1[i]` for every `i`,
then `NewBytes32(b)`. -/
def NewBytes32FromBytesLeftPad (i1 : List Nat) : Except Panic (Arr32 Byte) := do
  let b : Arr32 Nat := Cells.zero 32 0
  let startOffset : Int := 32 - (i1.length : Int) - 1
  let b ← forRange i1.length
    (fun i b => do
      let x ← sliceIndex i1 i
      Cells.assign b (startOffset + i) x)
    b
  NewBytes32 b

/-! ## Vocabulary of the statements -/

/-- The cell `i` of an array, for an index known to be in range (no bounds check is
needed, so no panic can arise). -/
def Cells.read {α : Type} {n : Nat} (a : Cells α n) (i : Fin n) : α :=
  a.val.get (Fin.cast a.property.symm i)

/-- The array obtained by applying `f` to every cell, in order. -/
def Cells.map {α β : Type} {n : Nat} (f : α → β) (a : Cells α n) : Cells β n :=
  ⟨a.val.map f, by rw [List.length_map]; exact a.property⟩

/-- Reading one circuit byte back as a native byte: defined when the `Value` holds
a Go `int` in the range of `byte`. -/
def nativeByte (x : Byte) : Option Nat :=
  match x.Value with
  | Variable.int v => if 0 ≤ v ∧ v < 256 then some v.toNat else none
  | Variable.nil => none

/-- Reading a sequence of circuit bytes back as native bytes, element by element. -/
def nativeBytes : List Byte → Option (List Nat)
  | [] => some []
  | x :: xs =>
    match nativeByte x, nativeBytes xs with
    | some b, some bs => some (b :: bs)
    | _, _ => none

/-- The unsigned integer a byte sequence denotes when read big-endian (the first byte
is the most significant). -/
def bigEndianValue (l : List Nat) : Nat :=
  l.foldl (fun acc b => acc * 256 + b) 0

/-! ## The package state -/

/-- The package-level variables of `vars`: the file declares exactly one, `ZERO_BYTE`. -/
structure Globals where
  ZERO_BYTE : Byte
deriving DecidableEq, Repr

/-- The package state after initialisation, `var ZERO_BYTE = Byte{Value: 0}`. -/
def Globals.initial : Globals := Globals.mk Vars.ZERO_BYTE

/-- A statement or call run from a package state: it yields its result (or its panic)
together with the package state it leaves behind. -/
def Exec (α : Type) : Type := Globals → Except Panic α × Globals

/-- Sequencing of statements: `pure a` is an expression without effect; in
`m >>= f` the statements of `f` run from the package state `m` leaves, and a panic of
`m` ends the run in the package state reached so far. -/
instance : Monad Exec where
  pure a := fun g => (Except.ok a, g)
  bind m f := fun g =>
    match m g with
    | (Except.ok a, g₁) => f a g₁
    | (Except.error e, g₁) => (Except.error e, g₁)

/-- The Go assignment `ZERO_BYTE = v`, the statement that changes the package state.
It is part of the statement language; no function of `byte.go` contains it. -/
def Exec.assignZeroByte (v : Byte) : Exec Unit :=
  fun _ => (Except.ok (), Globals.mk v)

/-- An index expression on, or an assignment to a cell of, a function-local array or
slice (a parameter or a `var` of the function): it may panic; the storage it reads or
writes is the local value passed to it. -/
def Exec.onLocals {α : Type} (r : Except Panic α) : Exec α :=
  fun g => (r, g)

/-- The Go counted loop `for i := 0; i < n; i++ { body }` whose body is a sequence of
statements run from the package state. -/
def Stateful.forRange {σ : Type} (n : Nat) (body : Int → σ → Exec σ) (init : σ) : Exec σ :=
  List.foldlM (fun (s : σ) (i : Nat) => body (i : Int) s) init (List.range n)

/-- Source `NewByte`, statement by statement: `return Byte{Value: int(i1)}`. -/
def Stateful.NewByte (i1 : Nat) : Exec Byte :=
  pure (Byte.mk (Variable.int (i1 : Int)))

/-- Source `NewBytes`, statement by statement: `var result []Byte`; in the loop the
index expression `i1[i]` and `result = append(result, Byte{...})` on the local
`result`; `return result`. -/
def Stateful.NewBytes (i1 : List Nat) : Exec (List Byte) :=
  Stateful.forRange i1.length
    (fun i result => do
      let x ← Exec.onLocals (sliceIndex i1 i)
      pure (result ++ [Byte.mk (Variable.int (x : Int))]))
    []

/-- Source `NewBytesArray`, statement by statement: in the loop the index expression
`i1[i]`, the call `NewBytes(i1[i])` and the append to the local `result`. -/
def Stateful.NewBytesArray (i1 : List (List Nat)) : Exec (List (List Byte)) :=
  Stateful.forRange i1.length
    (fun i result => do
      let x ← Exec.onLocals (sliceIndex i1 i)
      let y ← Stateful.NewBytes x
      pure (result ++ [y]))
    []

/-- Source `NewBytes32`, statement by statement: `var result [32]Byte`; in the loop
the index expression `i1[i]` and the assignment `result[i] = Byte{...}` to the local
array `result`. -/
def Stateful.NewBytes32 (i1 : Arr32 Nat) : Exec (Arr32 Byte) :=
  Stateful.forRange 32
    (fun i result => do
      let x ← Exec.onLocals (Cells.index i1 i)
      Exec.onLocals (Cells.assign result i (Byte.mk (Variable.int (x : Int)))))
    (Cells.zero 32 (Byte.mk Variable.nil))

/-- Source `NewBytes32Array`, statement by statement: in the loop the index expression
`i1[i]`, the call `NewBytes32(i1[i])` and the append to the local `result`. -/
def Stateful.NewBytes32Array (i1 : List (Arr32 Nat)) : Exec (List (Arr32 Byte)) :=
  Stateful.forRange i1.length
    (fun i result => do
      let x ← Exec.onLocals (sliceIndex i1 i)
      let y ← Stateful.NewBytes32 x
      pure (result ++ [y]))
    []

/-- Go standard library `binary.LittleEndian.PutUint64(b, v)`, statement by statement:
the bounds check `_ = b[7]` and eight assignments to cells of the slice `b` it is
given. -/
def Stateful.PutUint64 {n : Nat} (b : Cells Nat n) (v : Nat) : Exec (Cells Nat n) := do
  let _ ← Exec.onLocals (Cells.index b 7)
  let b ← Exec.onLocals (Cells.assign b 0 (v % 256))
  let b ← Exec.onLocals (Cells.assign b 1 ((v >>> 8) % 256))
  let b ← Exec.onLocals (Cells.assign b 2 ((v >>> 16) % 256))
  let b ← Exec.onLocals (Cells.assign b 3 ((v >>> 24) % 256))
  let b ← Exec.onLocals (Cells.assign b 4 ((v >>> 32) % 256))
  let b ← Exec.onLocals (Cells.assign b 5 ((v >>> 40) % 256))
  let b ← Exec.onLocals (Cells.assign b 6 ((v >>> 48) % 256))
  Exec.onLocals (Cells.assign b 7 ((v >>> 56) % 256))

/-- Source `NewBytes32FromU64LE`, statement by statement: `var b [32]byte`, the call
`PutUint64(b[:], i1)` on the slice of the local array `b`, the call `NewBytes32(b)`. -/
def Stateful.NewBytes32FromU64LE (i1 : Nat) : Exec (Arr32 Byte) := do
  let b : Arr32 Nat := Cells.zero 32 0
  let b ← Stateful.PutUint64 b i1
  Stateful.NewBytes32 b

/-- Source `NewBytes32FromBytesLeftPad`, statement by statement: `var b [32]byte`,
`startOffset := 32 - len(i1) - 1`, in the loop the index expression `i1[i]` and the
assignment `b[startOffset+i] = i1[i]` to the local array `b`, the call
`NewBytes32(b)`. -/
def Stateful.NewBytes32FromBytesLeftPad (i1 : List Nat) : Exec (Arr32 Byte) := do
  let b : Arr32 Nat := Cells.zero 32 0
  let startOffset : Int := 32 - (i1.length : Int) - 1
  let b ← Stateful.forRange i1.length
    (fun i b => do
      let x ← Exec.onLocals (sliceIndex i1 i)
      Exec.onLocals (Cells.assign b (startOffset + i) x))
    b
  Stateful.NewBytes32 b

/-! ## Loops and index expressions -/

theorem forRange_zero {σ : Type} (body : Int → σ → Except Panic σ) (init : σ) :
    forRange 0 body init = Except.ok init := rfl

theorem forRange_succ {σ : Type} (n : Nat) (body : Int → σ → Except Panic σ) (init : σ) :
    forRange (n + 1) body init = forRange n body init >>= fun s => body (n : Int) s := by
  simp [forRange, List.range_succ, List.foldlM_append]

/-- A loop whose first iteration panics panics with the same value. -/
theorem forRange_error_first {σ : Type} (n : Nat) (body : Int → σ → Except Panic σ) (init : σ)
    (e : Panic) (hn : 0 < n) (h : body 0 init = Except.error e) :
    forRange n body init = Except.error e := by
  obtain ⟨m, rfl⟩ : ∃ m, n = m + 1 := ⟨n - 1, by omega⟩
  unfold forRange
  rw [List.range_succ_eq_map, List.foldlM_cons]
  have h0 : body ((0 : Nat) : Int) init = Except.error e := h
  rw [h0]
  rfl

/-- Invariant rule for the counted loop: an invariant that holds initially and is
re-established by every iteration, none of which panics, holds at exit. -/
theorem forRange_inv {σ : Type} (n : Nat) (body : Int → σ → Except Panic σ) (init : σ)
    (P : Nat → σ → Prop) (h0 : P 0 init)
    (hstep : ∀ k s, k < n → P k s → ∃ s', body (k : Int) s = Except.ok s' ∧ P (k + 1) s') :
    ∃ s, forRange n body init = Except.ok s ∧ P n s := by
  have key : ∀ m, m ≤ n → ∃ s, forRange m body init = Except.ok s ∧ P m s := by
    intro m
    induction m with
    | zero => intro _; exact ⟨init, rfl, h0⟩
    | succ m ih =>
      intro hm
      obtain ⟨s, hs, hP⟩ := ih (by omega)
      obtain ⟨s', hs', hP'⟩ := hstep m s (by omega) hP
      refine ⟨s', ?_, hP'⟩
      rw [forRange_succ, hs]
      exact hs'
  exact key n (le_refl n)

theorem sliceIndex_natCast {α : Type} (s : List α) (i : Nat) (h : i < s.length) :
    sliceIndex s (i : Int) = Except.ok s[i] := by
  simp [sliceIndex, List.getElem?_eq_getElem h]

theorem Cells.assign_natCast {α : Type} {n : Nat} (a : Cells α n) (i : Nat) (h : i < n)
    (v : α) : ∃ r, Cells.assign a (i : Int) v = Except.ok r ∧ r.val = a.val.set i v := by
  refine ⟨⟨a.val.set i v, by rw [List.length_set]; exact a.property⟩, ?_, rfl⟩
  simp [Cells.assign, h]

theorem Cells.assign_neg {α : Type} {n : Nat} (a : Cells α n) (i : Int) (h : i < 0) (v : α) :
    Cells.assign a i v = Except.error (Panic.indexOutOfRange i n) := by
  have : ¬ (0 ≤ i ∧ i < (n : Int)) := by omega
  simp [Cells.assign, this]

/-- A loop that appends `f l[k]` at iteration `k` builds `l.map f`. -/
theorem forRange_collect {α β : Type} (l : List α) (f : α → β)
    (body : Int → List β → Except Panic (List β))
    (hbody : ∀ (k : Nat) (h : k < l.length) (r : List β),
      body (k : Int) r = Except.ok (r ++ [f l[k]])) :
    forRange l.length body [] = Except.ok (l.map f) := by
  obtain ⟨r, hr, hP⟩ := forRange_inv l.length body []
    (fun k r => r = (l.take k).map f) (by simp)
    (by
      intro k r hk hr
      refine ⟨r ++ [f l[k]], hbody k hk r, ?_⟩
      show r ++ [f l[k]] = List.map f (List.take (k + 1) l)
      rw [hr, List.take_succ, List.getElem?_eq_getElem hk]
      simp only [Option.toList, List.map_append, List.map_cons, List.map_nil])
  rw [hr, hP, List.take_length]

/-- A loop that performs `dst[off + k] = f src[k]` for `k < n`, all indices being in
range, leaves `f src[j - off]` in the cells `off ≤ j < off + n` and the other cells
unchanged. -/
theorem forRange_copy {α β : Type} {m : Nat} (src : List α) (f : α → β) (dst : Cells β m)
    (off n : Nat) (hn : n ≤ src.length) (hoff : off + n ≤ m)
    (body : Int → Cells β m → Except Panic (Cells β m))
    (hbody : ∀ (k : Nat) (h : k < n) (r : Cells β m),
      body (k : Int) r = Cells.assign r ((off + k : Nat) : Int) (f (src[k]))) :
    ∃ r, forRange n body dst = Except.ok r ∧
      ∀ j, r.val[j]? =
        if off ≤ j ∧ j < off + n then (src[j - off]?).map f else dst.val[j]? := by
  obtain ⟨r, hr, hP⟩ := forRange_inv n body dst
    (fun k r => ∀ j, r.val[j]? =
        if off ≤ j ∧ j < off + k then (src[j - off]?).map f else dst.val[j]?)
    (by
      intro j
      have h0 : ¬ (off ≤ j ∧ j < off + 0) := by omega
      rw [if_neg h0])
    (by
      intro k r hk hr
      obtain ⟨r', hr', hval⟩ := Cells.assign_natCast r (off + k) (by omega) (f (src[k]))
      refine ⟨r', by rw [hbody k hk r]; exact hr', ?_⟩
      intro j
      rw [hval, List.getElem?_set, hr j]
      by_cases hj : off + k = j
      · subst hj
        have h1 : off + k < r.val.length := by rw [r.property]; omega
        have h2 : off ≤ off + k ∧ off + k < off + (k + 1) := by omega
        have h3 : off + k - off = k := by omega
        have h4 : k < src.length := by omega
        rw [if_pos rfl, if_pos h1, if_pos h2, h3, List.getElem?_eq_getElem h4]
        rfl
      · have h5 : (off ≤ j ∧ j < off + (k + 1)) ↔ (off ≤ j ∧ j < off + k) := by omega
        rw [if_neg hj]
        simp only [h5])
  exact ⟨r, hr, hP⟩

/-! ## The constructors, in closed form -/

theorem Cells.ext_val {α : Type} {n : Nat} (a b : Cells α n) (h : a.val = b.val) : a = b :=
  Subtype.ext h

theorem Cells.zero_getElem_opt {α : Type} (n : Nat) (z : α) (j : Nat) :
    (Cells.zero n z).val[j]? = if j < n then some z else none :=
  List.getElem?_replicate

theorem Cells.read_eq_iff {α : Type} {n : Nat} (a : Cells α n) (i : Fin n) (x : α) :
    a.read i = x ↔ a.val[i.val]? = some x := by
  have hi : i.val < a.val.length := by rw [a.property]; exact i.isLt
  rw [List.getElem?_eq_getElem hi]
  simp [Cells.read, List.get_eq_getElem]

theorem Cells.read_map {α β : Type} {n : Nat} (f : α → β) (a : Cells α n) (i : Fin n) :
    (Cells.map f a).read i = f (a.read i) := by
  simp [Cells.read, Cells.map, List.get_eq_getElem]

theorem NewBytes_eq (s : List Nat) : NewBytes s = Except.ok (s.map NewByte) := by
  apply forRange_collect s NewByte
  intro k hk r
  rw [sliceIndex_natCast s k hk]
  rfl

theorem NewBytesArray_eq (bufs : List (List Nat)) :
    NewBytesArray bufs = Except.ok (bufs.map (fun buf => buf.map NewByte)) := by
  apply forRange_collect bufs (fun buf => buf.map NewByte)
  intro k hk r
  rw [sliceIndex_natCast bufs k hk]
  show (NewBytes bufs[k] >>= fun y => pure (r ++ [y])) = _
  rw [NewBytes_eq]
  rfl

theorem NewBytes32_eq (blk : Arr32 Nat) : NewBytes32 blk = Except.ok (Cells.map NewByte blk) := by
  obtain ⟨r, hr, hP⟩ := forRange_copy blk.val NewByte (Cells.zero 32 (Byte.mk Variable.nil))
    0 32 (by rw [blk.property]) (by omega)
    (fun i result => do
      let x ← Cells.index blk i
      Cells.assign result i (Byte.mk (Variable.int (x : Int))))
    (by
      intro k hk r
      have hk' : k < blk.val.length := by rw [blk.property]; exact hk
      show (sliceIndex blk.val (k : Int) >>= fun x => _) = _
      rw [sliceIndex_natCast blk.val k hk', Nat.zero_add]
      rfl)
  have hr' : NewBytes32 blk = Except.ok r := hr
  rw [hr']
  congr 1
  apply Cells.ext_val
  apply List.ext_getElem?
  intro j
  rw [hP j]
  by_cases hj : j < 32
  · have h1 : 0 ≤ j ∧ j < 0 + 32 := by omega
    rw [if_pos h1]
    simp [Cells.map]
  · have h1 : ¬ (0 ≤ j ∧ j < 0 + 32) := by omega
    have h2 : (Cells.map NewByte blk).val.length ≤ j := by
      rw [(Cells.map NewByte blk).property]; omega
    rw [if_neg h1, List.getElem?_eq_none h2]
    simp [Cells.zero]
    omega

theorem NewBytes32Array_eq (bufs : List (Arr32 Nat)) :
    NewBytes32Array bufs = Except.ok (bufs.map (Cells.map NewByte)) := by
  apply forRange_collect bufs (Cells.map NewByte)
  intro k hk r
  rw [sliceIndex_natCast bufs k hk]
  show (NewBytes32 bufs[k] >>= fun y => pure (r ++ [y])) = _
  rw [NewBytes32_eq]
  rfl

/-- The eight bytes `PutUint64` writes, least significant first. -/
theorem PutUint64_zero (v : Nat) :
    ∃ b, PutUint64 (Cells.zero 32 0) v = Except.ok b ∧
      b.val = [v % 256, (v >>> 8) % 256, (v >>> 16) % 256, (v >>> 24) % 256,
        (v >>> 32) % 256, (v >>> 40) % 256, (v >>> 48) % 256, (v >>> 56) % 256]
        ++ List.replicate 24 0 :=
  ⟨_, rfl, rfl⟩

theorem NewBytes32FromU64LE_eq (v : Nat) :
    ∃ r, NewBytes32FromU64LE v = Except.ok r ∧
      r.val = ([v % 256, (v >>> 8) % 256, (v >>> 16) % 256, (v >>> 24) % 256,
        (v >>> 32) % 256, (v >>> 40) % 256, (v >>> 48) % 256, (v >>> 56) % 256]
        ++ List.replicate 24 0).map NewByte := by
  obtain ⟨b, hb, hval⟩ := PutUint64_zero v
  refine ⟨Cells.map NewByte b, ?_, ?_⟩
  · show (PutUint64 (Cells.zero 32 0) v >>= fun b => NewBytes32 b) = _
    rw [hb]
    exact NewBytes32_eq b
  · show b.val.map NewByte = _
    rw [hval]

/-- The copy loop of `NewBytes32FromBytesLeftPad` on an input of at most 31 bytes. -/
theorem leftPad_loop (buf : List Nat) (hlen : buf.length ≤ 31) :
    ∃ b : Arr32 Nat,
      forRange buf.length
        (fun i b => do
          let x ← sliceIndex buf i
          Cells.assign b ((32 - (buf.length : Int) - 1) + i) x)
        (Cells.zero 32 0) = Except.ok b ∧
      b.val = List.replicate (31 - buf.length) 0 ++ buf ++ [0] := by
  obtain ⟨b, hb, hP⟩ := forRange_copy buf id (Cells.zero 32 (0 : Nat))
    (31 - buf.length) buf.length (le_refl _) (by omega)
    (fun i b => do
      let x ← sliceIndex buf i
      Cells.assign b ((32 - (buf.length : Int) - 1) + i) x)
    (by
      intro k hk r
      show (sliceIndex buf (k : Int) >>= fun x => _) = _
      rw [sliceIndex_natCast buf k hk]
      have hidx : (32 - (buf.length : Int) - 1) + (k : Int) = ((31 - buf.length + k : Nat) : Int) := by
        omega
      show Cells.assign r ((32 - (buf.length : Int) - 1) + (k : Int)) buf[k] = _
      rw [hidx]
      rfl)
  refine ⟨b, hb, ?_⟩
  apply List.ext_getElem?
  intro j
  rw [hP j, Cells.zero_getElem_opt]
  have hlenL : (List.replicate (31 - buf.length) 0 ++ buf).length = 31 := by
    rw [List.length_append, List.length_replicate]; omega
  by_cases h1 : j < 31 - buf.length
  · have h2 : ¬ (31 - buf.length ≤ j ∧ j < 31 - buf.length + buf.length) := by omega
    rw [if_neg h2, if_pos (by omega), List.append_assoc,
      List.getElem?_append_left (by rw [List.length_replicate]; exact h1),
      List.getElem?_replicate, if_pos h1]
  · by_cases h3 : j < 31
    · have h2 : 31 - buf.length ≤ j ∧ j < 31 - buf.length + buf.length := by omega
      rw [if_pos h2, List.append_assoc,
        List.getElem?_append_right (by rw [List.length_replicate]; omega),
        List.length_replicate,
        List.getElem?_append_left (by omega), Option.map_id, id]
    · have h2 : ¬ (31 - buf.length ≤ j ∧ j < 31 - buf.length + buf.length) := by omega
      rw [if_neg h2, List.getElem?_append_right (by rw [hlenL]; omega), hlenL]
      by_cases h4 : j = 31
      · subst h4
        rfl
      · have h5 : ¬ j < 32 := by omega
        rw [if_neg h5, List.getElem?_eq_none (by simp; omega)]

theorem NewBytes32FromBytesLeftPad_ok (buf : List Nat) (hlen : buf.length ≤ 31) :
    ∃ r, NewBytes32FromBytesLeftPad buf = Except.ok r ∧
      r.val = (List.replicate (31 - buf.length) 0 ++ buf ++ [0]).map NewByte := by
  obtain ⟨b, hb, hval⟩ := leftPad_loop buf hlen
  refine ⟨Cells.map NewByte b, ?_, ?_⟩
  · show (forRange buf.length _ (Cells.zero 32 0) >>= fun b => NewBytes32 b) = _
    rw [hb]
    exact NewBytes32_eq b
  · show b.val.map NewByte = _
    rw [hval]

theorem NewBytes32FromBytesLeftPad_panic (buf : List Nat) (hlen : 32 ≤ buf.length) :
    NewBytes32FromBytesLeftPad buf =
      Except.error (Panic.indexOutOfRange (31 - (buf.length : Int)) 32) := by
  have hloop : forRange buf.length
      (fun i (b : Arr32 Nat) => do
        let x ← sliceIndex buf i
        Cells.assign b ((32 - (buf.length : Int) - 1) + i) x)
      (Cells.zero 32 0) = Except.error (Panic.indexOutOfRange (31 - (buf.length : Int)) 32) := by
    apply forRange_error_first _ _ _ _ (by omega)
    have h0 : sliceIndex buf 0 = Except.ok buf[0] := sliceIndex_natCast buf 0 (by omega)
    show (sliceIndex buf 0 >>= fun x => _) = _
    rw [h0]
    have hidx : (32 - (buf.length : Int) - 1) + 0 = 31 - (buf.length : Int) := by omega
    show Cells.assign _ ((32 - (buf.length : Int) - 1) + 0) _ = _
    rw [hidx]
    exact Cells.assign_neg _ _ (by omega) _
  show (forRange buf.length _ (Cells.zero 32 0) >>= fun b => NewBytes32 b) = _
  rw [hloop]
  rfl

theorem NewByte_injective : Function.Injective NewByte := by
  intro a b h
  have h1 : Variable.int (a : Int) = Variable.int (b : Int) := congrArg Byte.Value h
  exact Int.ofNat.inj (Variable.int.inj h1)

theorem nativeByte_NewByte (b : Nat) (hb : b < 256) : nativeByte (NewByte b) = some b := by
  have h : 0 ≤ (b : Int) ∧ (b : Int) < 256 := by omega
  simp [nativeByte, NewByte, h]

theorem nativeBytes_map_NewByte (s : List Nat) (hs : ∀ b ∈ s, b < 256) :
    nativeBytes (s.map NewByte) = some s := by
  induction s with
  | nil => rfl
  | cons b bs ih =>
    have hb : b < 256 := hs b (List.mem_cons_self b bs)
    have hbs : ∀ x ∈ bs, x < 256 := fun x hx => hs x (List.mem_cons_of_mem b hx)
    simp only [List.map_cons, nativeBytes, nativeByte_NewByte b hb, ih hbs]

theorem bigEndianValue_foldl (l : List Nat) (acc : Nat) :
    l.foldl (fun a b => a * 256 + b) acc = acc * 256 ^ l.length + bigEndianValue l := by
  induction l generalizing acc with
  | nil => simp [bigEndianValue]
  | cons b bs ih =>
    have h0 : bigEndianValue (b :: bs) = (0 * 256 + b) * 256 ^ bs.length + bigEndianValue bs :=
      ih (0 * 256 + b)
    rw [List.foldl_cons, ih, h0, List.length_cons]
    ring

theorem bigEndianValue_append (l₁ l₂ : List Nat) :
    bigEndianValue (l₁ ++ l₂) = bigEndianValue l₁ * 256 ^ l₂.length + bigEndianValue l₂ := by
  unfold bigEndianValue
  rw [List.foldl_append]
  exact bigEndianValue_foldl l₂ _

theorem bigEndianValue_replicate_zero (k : Nat) : bigEndianValue (List.replicate k 0) = 0 := by
  induction k with
  | zero => rfl
  | succ k ih =>
    rw [List.replicate_succ', bigEndianValue_append, ih]
    rfl

/-- The bytes of the block `NewBytes32FromBytesLeftPad` builds, read back, and their
big-endian value. -/
theorem leftPad_bigEndianValue (buf : List Nat) (hlen : buf.length ≤ 31)
    (hbuf : ∀ b ∈ buf, b < 256) :
    ∃ r l, NewBytes32FromBytesLeftPad buf = Except.ok r ∧ nativeBytes r.val = some l ∧
      l = List.replicate (31 - buf.length) 0 ++ buf ++ [0] ∧
      bigEndianValue l = 256 * bigEndianValue buf := by
  obtain ⟨r, hr, hval⟩ := NewBytes32FromBytesLeftPad_ok buf hlen
  refine ⟨r, _, hr, ?_, rfl, ?_⟩
  · rw [hval]
    apply nativeBytes_map_NewByte
    intro b hb
    rcases List.mem_append.mp hb with hb | hb
    · rcases List.mem_append.mp hb with hb | hb
      · rw [(List.mem_replicate.mp hb).2]
        omega
      · exact hbuf b hb
    · rw [List.mem_singleton.mp hb]
      omega
  · rw [bigEndianValue_append, bigEndianValue_append, bigEndianValue_replicate_zero]
    simp [bigEndianValue]
    ring

/-! ## The claims -/

/-- C1 (evaluation of the code where the claim fails).  On the two bytes `0xAA, 0xBB`
`NewBytes32FromBytesLeftPad` returns 29 zero bytes, then `0xAA`, `0xBB`, then one zero
byte: cell 30 holds `0xBB` and cell 31 holds `0`, so the result is not the standard
left-padding (30 zero bytes followed by `0xAA, 0xBB`) that the claim describes. -/
theorem NewBytes32FromBytesLeftPad_two_bytes :
    ∃ r, NewBytes32FromBytesLeftPad [0xAA, 0xBB] = Except.ok r ∧
      r.val = (List.replicate 29 0 ++ [0xAA, 0xBB, 0]).map NewByte ∧
      (r.read 29).Value = Variable.int 0xAA ∧
      (r.read 30).Value = Variable.int 0xBB ∧
      (r.read 31).Value = Variable.int 0 ∧
      r.val ≠ (List.replicate 30 0 ++ [0xAA, 0xBB]).map NewByte :=
  ⟨_, rfl, rfl, rfl, rfl, rfl, by decide⟩

/-- C2.  On a sequence of bytes `NewBytes32FromBytesLeftPad` panics with an
out-of-range index if and only if the input is longer than 31 bytes: every input of
length at most 31 returns a block of 32 cells, and every input of length 32 or more
panics (at the first assignment, whose index `31 - len` is negative). -/
theorem NewBytes32FromBytesLeftPad_fails_iff (buf : List Nat) (_hbuf : ∀ b ∈ buf, b < 256) :
    ((∃ i n, NewBytes32FromBytesLeftPad buf = Except.error (Panic.indexOutOfRange i n))
        ↔ 31 < buf.length) ∧
    (buf.length ≤ 31 →
      ∃ r, NewBytes32FromBytesLeftPad buf = Except.ok r ∧ r.val.length = 32) ∧
    (32 ≤ buf.length →
      NewBytes32FromBytesLeftPad buf =
        Except.error (Panic.indexOutOfRange (31 - (buf.length : Int)) 32)) := by
  refine ⟨⟨?_, ?_⟩, ?_, ?_⟩
  · rintro ⟨i, n, h⟩
    by_contra hlen
    obtain ⟨r, hr, _⟩ := NewBytes32FromBytesLeftPad_ok buf (by omega)
    rw [hr] at h
    exact Except.noConfusion h
  · intro hlen
    exact ⟨_, _, NewBytes32FromBytesLeftPad_panic buf (by omega)⟩
  · intro hlen
    obtain ⟨r, hr, _⟩ := NewBytes32FromBytesLeftPad_ok buf hlen
    exact ⟨r, hr, r.property⟩
  · intro hlen
    exact NewBytes32FromBytesLeftPad_panic buf hlen

/-- C3.  For a 64-bit unsigned `v`, `NewBytes32FromU64LE v` returns a block of 32 cells
whose cell `i` holds `(v / 256 ^ i) % 256` for `i < 8` and `0` for `8 ≤ i < 32`; for
`v = 0x0102030405060708` the block is `8,7,6,5,4,3,2,1` followed by 24 zeros and for
`v = 0` it is 32 zeros. -/
theorem NewBytes32FromU64LE_bytes (v : Nat) (_hv : v < 2 ^ 64) :
    ∃ r, NewBytes32FromU64LE v = Except.ok r ∧ r.val.length = 32 ∧
      (∀ i : Fin 32, i.val < 8 →
        (r.read i).Value = Variable.int ((v / 256 ^ i.val % 256 : Nat) : Int)) ∧
      (∀ i : Fin 32, 8 ≤ i.val → (r.read i).Value = Variable.int 0) ∧
      (v = 0x0102030405060708 →
        r.val = ([8, 7, 6, 5, 4, 3, 2, 1] ++ List.replicate 24 0).map NewByte) ∧
      (v = 0 → r.val = (List.replicate 32 0).map NewByte) := by
  obtain ⟨r, hr, hval⟩ := NewBytes32FromU64LE_eq v
  refine ⟨r, hr, r.property, ?_, ?_, ?_, ?_⟩
  · rintro ⟨i, hi⟩ h8
    have h8' : i < 8 := h8
    have hcell : r.read ⟨i, hi⟩ = NewByte (v / 256 ^ i % 256) := by
      rw [Cells.read_eq_iff, hval]
      interval_cases i <;> simp [Nat.shiftRight_eq_div_pow]
    rw [hcell]
    rfl
  · rintro ⟨i, hi⟩ h8
    have h8' : 8 ≤ i := h8
    have hcell : r.read ⟨i, hi⟩ = NewByte 0 := by
      rw [Cells.read_eq_iff, hval]
      interval_cases i <;> rfl
    rw [hcell]
    rfl
  · intro h0
    subst h0
    rw [hval]
    rfl
  · intro h0
    subst h0
    rw [hval]
    rfl

/-- C4.  For every byte `b` (`0 ≤ b ≤ 255`) the `Value` of `NewByte b` is the Go `int`
numerically equal to `b`. -/
theorem NewByte_value (b : Nat) (_hb : b < 256) :
    (NewByte b).Value = Variable.int (b : Int) := rfl

/-- C5.  For every byte sequence `s` (the empty one included) `NewBytes s` returns a
sequence of the same length whose element `i` has the value `s[i]`; it is the
element-wise map of `NewByte` over `s`, in order. -/
theorem NewBytes_spec (s : List Nat) (_hs : ∀ b ∈ s, b < 256) :
    ∃ r, NewBytes s = Except.ok r ∧ r.length = s.length ∧
      (∀ (i : Nat) (h : i < s.length),
        (r[i]?).map Byte.Value = some (Variable.int (s[i] : Int))) ∧
      r = s.map NewByte := by
  refine ⟨s.map NewByte, NewBytes_eq s, List.length_map s NewByte, ?_, rfl⟩
  intro i h
  rw [List.getElem?_map, List.getElem?_eq_getElem h]
  rfl

/-- C6.  For every 32-byte block `blk`, `NewBytes32 blk` returns a block of exactly 32
cells and its cell `i` has the value `blk[i]`, for every `i` in `0..31`. -/
theorem NewBytes32_spec (blk : Arr32 Nat) (_hblk : ∀ b ∈ blk.val, b < 256) :
    ∃ r, NewBytes32 blk = Except.ok r ∧ r.val.length = 32 ∧
      ∀ i : Fin 32, (r.read i).Value = Variable.int (blk.read i : Int) := by
  refine ⟨Cells.map NewByte blk, NewBytes32_eq blk, (Cells.map NewByte blk).property, ?_⟩
  intro i
  rw [Cells.read_map]
  rfl

/-- C7.  For every sequence `bufs` of byte sequences, `NewBytesArray bufs` returns a
sequence of the same outer length whose element `i` is the result of `NewBytes bufs[i]`
(so the inner lengths and the outer order are kept), and the empty input gives the
empty output. -/
theorem NewBytesArray_spec (bufs : List (List Nat)) (_hbufs : ∀ buf ∈ bufs, ∀ b ∈ buf, b < 256) :
    ∃ r, NewBytesArray bufs = Except.ok r ∧ r.length = bufs.length ∧
      (∀ (i : Nat) (h : i < bufs.length),
        ∃ ri, NewBytes bufs[i] = Except.ok ri ∧ r[i]? = some ri ∧
          ri.length = bufs[i].length) ∧
      (bufs = [] → r = []) := by
  refine ⟨bufs.map (fun buf => buf.map NewByte), NewBytesArray_eq bufs,
    List.length_map bufs _, ?_, ?_⟩
  · intro i h
    refine ⟨bufs[i].map NewByte, NewBytes_eq bufs[i], ?_, List.length_map _ _⟩
    rw [List.getElem?_map, List.getElem?_eq_getElem h]
    rfl
  · intro h
    rw [h]
    rfl

/-- C8.  For every sequence `bufs` of 32-byte blocks, `NewBytes32Array bufs` returns a
sequence of length `len(bufs)` whose element `i` is the result of `NewBytes32 bufs[i]`. -/
theorem NewBytes32Array_spec (bufs : List (Arr32 Nat))
    (_hbufs : ∀ blk ∈ bufs, ∀ b ∈ blk.val, b < 256) :
    ∃ r, NewBytes32Array bufs = Except.ok r ∧ r.length = bufs.length ∧
      ∀ (i : Nat) (h : i < bufs.length),
        ∃ ri, NewBytes32 bufs[i] = Except.ok ri ∧ r[i]? = some ri := by
  refine ⟨bufs.map (Cells.map NewByte), NewBytes32Array_eq bufs, List.length_map bufs _, ?_⟩
  intro i h
  refine ⟨Cells.map NewByte bufs[i], NewBytes32_eq bufs[i], ?_⟩
  rw [List.getElem?_map, List.getElem?_eq_getElem h]
  rfl

/-- C9.  Round trip.  For every byte sequence `s`, reading the values of `NewBytes s`
back as native bytes gives `s`, and `NewBytes` applied to the bytes read back returns
the same sequence again; the same holds for `NewBytes32` on every 32-byte block.
Both constructors are injective. -/
theorem NewBytes_roundtrip (s : List Nat) (hs : ∀ b ∈ s, b < 256)
    (blk : Arr32 Nat) (hblk : ∀ b ∈ blk.val, b < 256) :
    (∃ r, NewBytes s = Except.ok r ∧ nativeBytes r = some s ∧
      ∀ s', nativeBytes r = some s' → NewBytes s' = Except.ok r) ∧
    (∃ r, NewBytes32 blk = Except.ok r ∧ nativeBytes r.val = some blk.val ∧
      ∀ blk' : Arr32 Nat, nativeBytes r.val = some blk'.val → NewBytes32 blk' = Except.ok r) ∧
    Function.Injective NewBytes ∧ Function.Injective NewBytes32 := by
  refine ⟨⟨s.map NewByte, NewBytes_eq s, nativeBytes_map_NewByte s hs, ?_⟩,
    ⟨Cells.map NewByte blk, NewBytes32_eq blk, nativeBytes_map_NewByte blk.val hblk, ?_⟩,
    ?_, ?_⟩
  · intro s' h
    rw [nativeBytes_map_NewByte s hs] at h
    rw [← Option.some.inj h]
    exact NewBytes_eq s
  · intro blk' h
    have h' : nativeBytes (blk.val.map NewByte) = some blk'.val := h
    rw [nativeBytes_map_NewByte blk.val hblk] at h'
    have hb : blk = blk' := Cells.ext_val blk blk' (Option.some.inj h')
    rw [← hb]
    exact NewBytes32_eq blk
  · intro a b h
    rw [NewBytes_eq, NewBytes_eq] at h
    exact List.map_injective_iff.mpr NewByte_injective (Except.ok.inj h)
  · intro a b h
    rw [NewBytes32_eq, NewBytes32_eq] at h
    have hv : a.val.map NewByte = b.val.map NewByte := congrArg Subtype.val (Except.ok.inj h)
    exact Cells.ext_val a b (List.map_injective_iff.mpr NewByte_injective hv)

/-- C10.  On the empty byte sequence `NewBytes32FromBytesLeftPad` returns a block of
32 cells, every one of value 0. -/
theorem NewBytes32FromBytesLeftPad_nil :
    ∃ r, NewBytes32FromBytesLeftPad [] = Except.ok r ∧ r.val.length = 32 ∧
      ∀ i : Fin 32, (r.read i).Value = Variable.int 0 :=
  ⟨_, rfl, rfl, by decide⟩

/-! ## Instances of the claims at concrete inputs -/

theorem NewBytes32FromBytesLeftPad_fails_iff_witness :
    (∀ b ∈ List.replicate 32 1, b < 256) ∧
    NewBytes32FromBytesLeftPad (List.replicate 32 1) =
      Except.error (Panic.indexOutOfRange (-1) 32) ∧
    (∀ b ∈ List.replicate 31 1, b < 256) ∧
    (∃ r, NewBytes32FromBytesLeftPad (List.replicate 31 1) = Except.ok r ∧ r.val.length = 32) :=
  ⟨by decide,
   (NewBytes32FromBytesLeftPad_fails_iff (List.replicate 32 1) (by decide)).2.2 (by decide),
   by decide,
   (NewBytes32FromBytesLeftPad_fails_iff (List.replicate 31 1) (by decide)).2.1 (by decide)⟩

theorem NewBytes32FromU64LE_bytes_witness :
    0x0102030405060708 < 2 ^ 64 ∧
    ∃ r, NewBytes32FromU64LE 0x0102030405060708 = Except.ok r ∧ r.val.length = 32 ∧
      (∀ i : Fin 32, i.val < 8 →
        (r.read i).Value =
          Variable.int ((0x0102030405060708 / 256 ^ i.val % 256 : Nat) : Int)) ∧
      (∀ i : Fin 32, 8 ≤ i.val → (r.read i).Value = Variable.int 0) ∧
      (0x0102030405060708 = 0x0102030405060708 →
        r.val = ([8, 7, 6, 5, 4, 3, 2, 1] ++ List.replicate 24 0).map NewByte) ∧
      (0x0102030405060708 = 0 → r.val = (List.replicate 32 0).map NewByte) :=
  ⟨by decide, NewBytes32FromU64LE_bytes 0x0102030405060708 (by decide)⟩

theorem NewByte_value_witness :
    255 < 256 ∧ (NewByte 255).Value = Variable.int 255 :=
  ⟨by decide, NewByte_value 255 (by decide)⟩

theorem NewBytes_spec_witness :
    (∀ b ∈ [0, 0xAA, 255], b < 256) ∧
    ∃ r, NewBytes [0, 0xAA, 255] = Except.ok r ∧ r.length = [0, 0xAA, 255].length ∧
      (∀ (i : Nat) (h : i < [0, 0xAA, 255].length),
        (r[i]?).map Byte.Value = some (Variable.int (([0, 0xAA, 255] : List Nat)[i] : Int))) ∧
      r = [0, 0xAA, 255].map NewByte :=
  ⟨by decide, NewBytes_spec [0, 0xAA, 255] (by decide)⟩

theorem NewBytes32_spec_witness :
    (∀ b ∈ (⟨List.range 32, rfl⟩ : Arr32 Nat).val, b < 256) ∧
    ∃ r, NewBytes32 ⟨List.range 32, rfl⟩ = Except.ok r ∧ r.val.length = 32 ∧
      ∀ i : Fin 32,
        (r.read i).Value = Variable.int ((Cells.read (⟨List.range 32, rfl⟩ : Arr32 Nat) i : Nat) : Int) :=
  ⟨by decide, NewBytes32_spec ⟨List.range 32, rfl⟩ (by decide)⟩

theorem NewBytesArray_spec_witness :
    (∀ buf ∈ [[1, 2], [], [255]], ∀ b ∈ buf, b < 256) ∧
    ∃ r, NewBytesArray [[1, 2], [], [255]] = Except.ok r ∧
      r.length = [[1, 2], [], [255]].length ∧
      (∀ (i : Nat) (h : i < [[1, 2], [], [255]].length),
        ∃ ri, NewBytes ([[1, 2], [], [255]] : List (List Nat))[i] = Except.ok ri ∧
          r[i]? = some ri ∧
          ri.length = (([[1, 2], [], [255]] : List (List Nat))[i]).length) ∧
      ([[1, 2], [], [255]] = ([] : List (List Nat)) → r = []) :=
  ⟨by decide, NewBytesArray_spec [[1, 2], [], [255]] (by decide)⟩

theorem NewBytes32Array_spec_witness :
    (∀ blk ∈ [(⟨List.range 32, rfl⟩ : Arr32 Nat), Cells.zero 32 0], ∀ b ∈ blk.val, b < 256) ∧
    ∃ r, NewBytes32Array [⟨List.range 32, rfl⟩, Cells.zero 32 0] = Except.ok r ∧
      r.length = [(⟨List.range 32, rfl⟩ : Arr32 Nat), Cells.zero 32 0].length ∧
      ∀ (i : Nat) (h : i < [(⟨List.range 32, rfl⟩ : Arr32 Nat), Cells.zero 32 0].length),
        ∃ ri, NewBytes32 ([(⟨List.range 32, rfl⟩ : Arr32 Nat), Cells.zero 32 0][i]) =
            Except.ok ri ∧
          r[i]? = some ri :=
  ⟨by decide, NewBytes32Array_spec [⟨List.range 32, rfl⟩, Cells.zero 32 0] (by decide)⟩

theorem NewBytes_roundtrip_witness :
    (∀ b ∈ [0, 0xAA, 255], b < 256) ∧
    (∀ b ∈ (⟨List.range 32, rfl⟩ : Arr32 Nat).val, b < 256) ∧
    (∃ r, NewBytes [0, 0xAA, 255] = Except.ok r ∧ nativeBytes r = some [0, 0xAA, 255] ∧
      ∀ s', nativeBytes r = some s' → NewBytes s' = Except.ok r) ∧
    (∃ r, NewBytes32 ⟨List.range 32, rfl⟩ = Except.ok r ∧
      nativeBytes r.val = some (List.range 32) ∧
      ∀ blk' : Arr32 Nat, nativeBytes r.val = some blk'.val → NewBytes32 blk' = Except.ok r) :=
  ⟨by decide, by decide,
   (NewBytes_roundtrip [0, 0xAA, 255] (by decide) ⟨List.range 32, rfl⟩ (by decide)).1,
   (NewBytes_roundtrip [0, 0xAA, 255] (by decide) ⟨List.range 32, rfl⟩ (by decide)).2.1⟩

/-! ## Statements run from the package state -/

/-- The assignment `ZERO_BYTE = v` does change the package state. -/
theorem Exec.assignZeroByte_writes :
    (Exec.assignZeroByte (NewByte 1) Globals.initial).2.ZERO_BYTE = NewByte 1 ∧
    (Exec.assignZeroByte (NewByte 1) Globals.initial).2 ≠ Globals.initial :=
  ⟨rfl, by decide⟩

/-- Sequencing of two statements each of which returns a value that does not depend
on the package state and hands the state on. -/
theorem Exec.bind_frame {α β : Type} (m : Exec α) (r : Except Panic α) (f : α → Exec β)
    (f' : α → Except Panic β) (hm : ∀ g, m g = (r, g)) (hf : ∀ a g, f a g = (f' a, g))
    (g : Globals) : (m >>= f) g = (r >>= f', g) := by
  show (match m g with
    | (Except.ok a, g₁) => f a g₁
    | (Except.error e, g₁) => (Except.error e, g₁)) = _
  rw [hm g]
  cases r with
  | ok a => exact hf a g
  | error e => rfl

/-- A loop whose body hands the package state on hands it on, and computes what the
loop over the state-free body computes. -/
theorem Stateful.forRange_frame {σ : Type} (n : Nat) (body : Int → σ → Exec σ)
    (body' : Int → σ → Except Panic σ) (hbody : ∀ i s g, body i s g = (body' i s, g))
    (init : σ) (g : Globals) :
    Stateful.forRange n body init g = (Vars.forRange n body' init, g) := by
  unfold Stateful.forRange Vars.forRange
  generalize List.range n = l
  induction l generalizing init g with
  | nil => rfl
  | cons i l ih =>
    rw [List.foldlM_cons, List.foldlM_cons]
    exact Exec.bind_frame _ _ _ _ (fun g₁ => hbody (i : Int) init g₁) (fun a g₁ => ih a g₁) g

theorem frame_NewBytes (s : List Nat) (g : Globals) :
    Stateful.NewBytes s g = (NewBytes s, g) := by
  apply Stateful.forRange_frame
  intro i result g
  exact Exec.bind_frame _ _ _ _ (fun _ => rfl) (fun _ _ => rfl) g

theorem frame_NewBytes32 (blk : Arr32 Nat) (g : Globals) :
    Stateful.NewBytes32 blk g = (NewBytes32 blk, g) := by
  apply Stateful.forRange_frame
  intro i result g
  exact Exec.bind_frame _ _ _ _ (fun _ => rfl) (fun _ _ => rfl) g

theorem frame_NewBytesArray (ss : List (List Nat)) (g : Globals) :
    Stateful.NewBytesArray ss g = (NewBytesArray ss, g) := by
  apply Stateful.forRange_frame
  intro i result g
  refine Exec.bind_frame _ _ _ _ (fun _ => rfl) (fun x g => ?_) g
  exact Exec.bind_frame _ _ _ _ (frame_NewBytes x) (fun _ _ => rfl) g

theorem frame_NewBytes32Array (blks : List (Arr32 Nat)) (g : Globals) :
    Stateful.NewBytes32Array blks g = (NewBytes32Array blks, g) := by
  apply Stateful.forRange_frame
  intro i result g
  refine Exec.bind_frame _ _ _ _ (fun _ => rfl) (fun x g => ?_) g
  exact Exec.bind_frame _ _ _ _ (frame_NewBytes32 x) (fun _ _ => rfl) g

theorem frame_PutUint64 {n : Nat} (b : Cells Nat n) (v : Nat) (g : Globals) :
    Stateful.PutUint64 b v g = (PutUint64 b v, g) := by
  refine Exec.bind_frame _ _ _ _ (fun _ => rfl) (fun _ g => ?_) g
  refine Exec.bind_frame _ _ _ _ (fun _ => rfl) (fun _ g => ?_) g
  refine Exec.bind_frame _ _ _ _ (fun _ => rfl) (fun _ g => ?_) g
  refine Exec.bind_frame _ _ _ _ (fun _ => rfl) (fun _ g => ?_) g
  refine Exec.bind_frame _ _ _ _ (fun _ => rfl) (fun _ g => ?_) g
  refine Exec.bind_frame _ _ _ _ (fun _ => rfl) (fun _ g => ?_) g
  refine Exec.bind_frame _ _ _ _ (fun _ => rfl) (fun _ g => ?_) g
  refine Exec.bind_frame _ _ _ _ (fun _ => rfl) (fun _ g => ?_) g
  rfl

theorem frame_NewBytes32FromU64LE (v : Nat) (g : Globals) :
    Stateful.NewBytes32FromU64LE v g = (NewBytes32FromU64LE v, g) :=
  Exec.bind_frame _ _ _ _ (frame_PutUint64 (Cells.zero 32 0) v) (fun b g => frame_NewBytes32 b g) g

theorem frame_NewBytes32FromBytesLeftPad (buf : List Nat) (g : Globals) :
    Stateful.NewBytes32FromBytesLeftPad buf g = (NewBytes32FromBytesLeftPad buf, g) := by
  refine Exec.bind_frame _ _ _ _ (fun g => ?_) (fun b g => frame_NewBytes32 b g) g
  apply Stateful.forRange_frame
  intro i b g
  exact Exec.bind_frame _ _ _ _ (fun _ => rfl) (fun _ _ => rfl) g

/-! ## The package state, totality, and the layout of the padded block -/

/-- C11.  `ZERO_BYTE` has the value 0 and equals `NewByte 0`; with the package
variable made an explicit state and every function body run statement by statement
from it, each of the seven constructors, on every input and from every package state,
leaves `ZERO_BYTE` as it found it (also when it panics) and returns the result of the
constructor. -/
theorem ZERO_BYTE_unchanged (g : Globals) (b : Nat) (s : List Nat) (ss : List (List Nat))
    (blk : Arr32 Nat) (blks : List (Arr32 Nat)) (v : Nat) (buf : List Nat) :
    ZERO_BYTE.Value = Variable.int 0 ∧ ZERO_BYTE = NewByte 0 ∧
    Globals.initial.ZERO_BYTE = ZERO_BYTE ∧
    ((Stateful.NewByte b g).2.ZERO_BYTE = g.ZERO_BYTE ∧
      (Stateful.NewByte b g).1 = Except.ok (NewByte b)) ∧
    ((Stateful.NewBytes s g).2.ZERO_BYTE = g.ZERO_BYTE ∧
      (Stateful.NewBytes s g).1 = NewBytes s) ∧
    ((Stateful.NewBytesArray ss g).2.ZERO_BYTE = g.ZERO_BYTE ∧
      (Stateful.NewBytesArray ss g).1 = NewBytesArray ss) ∧
    ((Stateful.NewBytes32 blk g).2.ZERO_BYTE = g.ZERO_BYTE ∧
      (Stateful.NewBytes32 blk g).1 = NewBytes32 blk) ∧
    ((Stateful.NewBytes32Array blks g).2.ZERO_BYTE = g.ZERO_BYTE ∧
      (Stateful.NewBytes32Array blks g).1 = NewBytes32Array blks) ∧
    ((Stateful.NewBytes32FromU64LE v g).2.ZERO_BYTE = g.ZERO_BYTE ∧
      (Stateful.NewBytes32FromU64LE v g).1 = NewBytes32FromU64LE v) ∧
    ((Stateful.NewBytes32FromBytesLeftPad buf g).2.ZERO_BYTE = g.ZERO_BYTE ∧
      (Stateful.NewBytes32FromBytesLeftPad buf g).1 = NewBytes32FromBytesLeftPad buf) := by
  refine ⟨rfl, rfl, rfl, ⟨rfl, rfl⟩, ?_, ?_, ?_, ?_, ?_, ?_⟩
  · rw [frame_NewBytes]; exact ⟨rfl, rfl⟩
  · rw [frame_NewBytesArray]; exact ⟨rfl, rfl⟩
  · rw [frame_NewBytes32]; exact ⟨rfl, rfl⟩
  · rw [frame_NewBytes32Array]; exact ⟨rfl, rfl⟩
  · rw [frame_NewBytes32FromU64LE]; exact ⟨rfl, rfl⟩
  · rw [frame_NewBytes32FromBytesLeftPad]; exact ⟨rfl, rfl⟩

/-- C12.  `NewByte`, `NewBytes`, `NewBytesArray`, `NewBytes32`, `NewBytes32Array` and
`NewBytes32FromU64LE` are total: on every input each returns a result, no bounds
check failing; this includes the eight assignments of `PutUint64` into the 32-cell
buffer. -/
theorem constructors_total (b : Nat) (s : List Nat) (ss : List (List Nat))
    (blk : Arr32 Nat) (blks : List (Arr32 Nat)) (v : Nat) :
    (∃ r, Stateful.NewByte b Globals.initial = (Except.ok r, Globals.initial)) ∧
    (∃ r, NewBytes s = Except.ok r) ∧
    (∃ r, NewBytesArray ss = Except.ok r) ∧
    (∃ r, NewBytes32 blk = Except.ok r) ∧
    (∃ r, NewBytes32Array blks = Except.ok r) ∧
    (∃ r, PutUint64 (Cells.zero 32 0) v = Except.ok r) ∧
    (∃ r, NewBytes32FromU64LE v = Except.ok r) := by
  obtain ⟨p, hp, _⟩ := PutUint64_zero v
  obtain ⟨r, hr, _⟩ := NewBytes32FromU64LE_eq v
  exact ⟨⟨NewByte b, rfl⟩, ⟨_, NewBytes_eq s⟩, ⟨_, NewBytesArray_eq ss⟩,
    ⟨_, NewBytes32_eq blk⟩, ⟨_, NewBytes32Array_eq blks⟩, ⟨p, hp⟩, ⟨r, hr⟩⟩

/-- C13.  For an input of `n ≤ 31` bytes `NewBytes32FromBytesLeftPad` puts the data one
cell before the place of standard left-padding: cell `31 - n + i` holds `buf[i]` for
`i < n`, and the other cells, `0 .. 30 - n` and `31`, hold 0; the last cell is always 0. -/
theorem NewBytes32FromBytesLeftPad_layout (buf : List Nat) (hlen : buf.length ≤ 31)
    (_hbuf : ∀ b ∈ buf, b < 256) :
    ∃ r, NewBytes32FromBytesLeftPad buf = Except.ok r ∧
      (∀ (i : Nat) (h : i < buf.length) (j : Fin 32), j.val = 31 - buf.length + i →
        (r.read j).Value = Variable.int (buf[i] : Int)) ∧
      (∀ j : Fin 32, j.val < 31 - buf.length ∨ j.val = 31 →
        (r.read j).Value = Variable.int 0) ∧
      (r.read 31).Value = Variable.int 0 := by
  obtain ⟨r, hr, hval⟩ := NewBytes32FromBytesLeftPad_ok buf hlen
  have hlenL : (List.replicate (31 - buf.length) 0 ++ buf).length = 31 := by
    rw [List.length_append, List.length_replicate]; omega
  have hzero : ∀ j : Fin 32, j.val < 31 - buf.length ∨ j.val = 31 →
      (r.read j).Value = Variable.int 0 := by
    intro j hj
    have hcell : r.read j = NewByte 0 := by
      rw [Cells.read_eq_iff, hval, List.getElem?_map]
      rcases hj with hj | hj
      · rw [List.append_assoc,
          List.getElem?_append_left (by rw [List.length_replicate]; exact hj),
          List.getElem?_replicate, if_pos hj]
        rfl
      · rw [List.getElem?_append_right (by rw [hlenL]; omega), hlenL, hj]
        rfl
    rw [hcell]
    rfl
  refine ⟨r, hr, ?_, hzero, hzero 31 (Or.inr rfl)⟩
  intro i h j hj
  have hcell : r.read j = NewByte buf[i] := by
    rw [Cells.read_eq_iff, hval, List.getElem?_map,
      List.getElem?_append_left (by rw [hlenL]; omega),
      List.getElem?_append_right (by rw [List.length_replicate]; omega),
      List.length_replicate]
    have hji : j.val - (31 - buf.length) = i := by omega
    rw [hji, List.getElem?_eq_getElem h]
    rfl
  rw [hcell]
  rfl

/-- C16.  `NewBytes32FromBytesLeftPad` ignores a leading zero byte: for an input `buf`
of at most 30 bytes, `[0] ++ buf` and `buf` give the same block; so two different
inputs of length at most 31 (the empty one and the single byte 0) give the same
block, and the function is not injective there. -/
theorem NewBytes32FromBytesLeftPad_leading_zero (buf : List Nat) (hlen : buf.length ≤ 30)
    (_hbuf : ∀ b ∈ buf, b < 256) :
    NewBytes32FromBytesLeftPad ([0] ++ buf) = NewBytes32FromBytesLeftPad buf ∧
    (∃ r, NewBytes32FromBytesLeftPad buf = Except.ok r) ∧
    (∃ a b : List Nat, a.length ≤ 31 ∧ b.length ≤ 31 ∧ (∀ x ∈ a, x < 256) ∧
      (∀ x ∈ b, x < 256) ∧ a ≠ b ∧
      NewBytes32FromBytesLeftPad a = NewBytes32FromBytesLeftPad b ∧
      ∃ r, NewBytes32FromBytesLeftPad a = Except.ok r) := by
  obtain ⟨r, hr, hval⟩ := NewBytes32FromBytesLeftPad_ok buf (by omega)
  obtain ⟨r0, hr0, hval0⟩ := NewBytes32FromBytesLeftPad_ok ([0] ++ buf)
    (by rw [List.length_append, List.length_singleton]; omega)
  refine ⟨?_, ⟨r, hr⟩, [], [0], by decide, by decide, by decide, by decide, by decide,
    rfl, ⟨_, rfl⟩⟩
  rw [hr, hr0]
  congr 1
  apply Cells.ext_val
  rw [hval, hval0]
  congr 1
  have h1 : ([0] ++ buf).length = buf.length + 1 := by
    rw [List.length_append, List.length_singleton]; omega
  have h2 : 31 - buf.length = (31 - (buf.length + 1)) + 1 := by omega
  rw [h1, h2, List.replicate_succ']
  have h3 : 31 - (buf.length + 1) + 1 - 1 = 31 - (buf.length + 1) := by omega
  simp only [List.append_assoc, h3]

/-- C17.  The fixed-size and the slice constructor agree: for every 32-byte block, the
32 cells of `NewBytes32 blk`, in order, are the sequence `NewBytes` returns on the 32
bytes of `blk`. -/
theorem NewBytes32_agrees_NewBytes (blk : Arr32 Nat) (_hblk : ∀ b ∈ blk.val, b < 256) :
    ∃ r, NewBytes32 blk = Except.ok r ∧ r.val.length = 32 ∧
      NewBytes blk.val = Except.ok r.val :=
  ⟨Cells.map NewByte blk, NewBytes32_eq blk, (Cells.map NewByte blk).property,
    NewBytes_eq blk.val⟩

/-- C14 (the claim as stated fails on the single byte 0).  On the input `[0]` the block
returned by `NewBytes32FromBytesLeftPad`, read as a big-endian integer, is 0, which is
the big-endian value of the input itself: the clause that the result is not the value
of `buf` does not hold there. -/
theorem leftPad_zero_byte_keeps_value :
    (∃ r l, NewBytes32FromBytesLeftPad [0] = Except.ok r ∧ nativeBytes r.val = some l ∧
      bigEndianValue l = 0 ∧ bigEndianValue l = bigEndianValue [0]) ∧
    ¬ (∃ r l, NewBytes32FromBytesLeftPad [0] = Except.ok r ∧ nativeBytes r.val = some l ∧
      bigEndianValue l = 256 * bigEndianValue [0] ∧
      bigEndianValue l ≠ bigEndianValue [0]) := by
  constructor
  · exact ⟨_, List.replicate 32 0, rfl, rfl, rfl, rfl⟩
  · rintro ⟨r, l, _, _, h1, h2⟩
    exact h2 h1

/-- C14 (amended).  For an input `buf` of `n ≤ 31` bytes, the block returned by
`NewBytes32FromBytesLeftPad`, read as a 32-byte big-endian integer, is exactly 256
times the big-endian value of `buf`; the block is the standard left-padding of `buf`
with one zero byte appended; and the integer differs from the value of `buf` itself
exactly when that value is not zero. -/
theorem NewBytes32FromBytesLeftPad_value (buf : List Nat) (hlen : buf.length ≤ 31)
    (hbuf : ∀ b ∈ buf, b < 256) :
    ∃ r l, NewBytes32FromBytesLeftPad buf = Except.ok r ∧ nativeBytes r.val = some l ∧
      l.length = 32 ∧
      bigEndianValue l = 256 * bigEndianValue buf ∧
      l = List.replicate (32 - (buf ++ [0]).length) 0 ++ (buf ++ [0]) ∧
      (bigEndianValue l ≠ bigEndianValue buf ↔ bigEndianValue buf ≠ 0) := by
  obtain ⟨r, l, hr, hl, hlist, hvalue⟩ := leftPad_bigEndianValue buf hlen hbuf
  refine ⟨r, l, hr, hl, ?_, hvalue, ?_, ?_⟩
  · rw [hlist]
    simp only [List.length_append, List.length_replicate, List.length_singleton]
    omega
  · rw [hlist, List.length_append, List.length_singleton, List.append_assoc]
    have h : 32 - (buf.length + 1) = 31 - buf.length := by omega
    rw [h]
  · rw [hvalue]
    omega

/-- C15.  For a 64-bit unsigned `v`, the bytes of `NewBytes32FromU64LE v` weighted by
`256 ^ i` (`i` the cell index, `0..31`) sum to `v`; so two 64-bit integers with the same
block are equal. -/
theorem NewBytes32FromU64LE_value (v : Nat) (hv : v < 2 ^ 64) :
    (∃ r l, NewBytes32FromU64LE v = Except.ok r ∧ nativeBytes r.val = some l ∧
      l.length = 32 ∧
      (∑ i in Finset.range 32, l.getD i 0 * 256 ^ i) = v) ∧
    (∀ w, w < 2 ^ 64 → NewBytes32FromU64LE v = NewBytes32FromU64LE w → v = w) := by
  have key : ∀ u, u < 2 ^ 64 →
      ∃ r, NewBytes32FromU64LE u = Except.ok r ∧
        ∃ l, nativeBytes r.val = some l ∧ l.length = 32 ∧
          (∑ i in Finset.range 32, l.getD i 0 * 256 ^ i) = u := by
    intro u hu
    obtain ⟨r, hr, hval⟩ := NewBytes32FromU64LE_eq u
    refine ⟨r, hr,
      [u % 256, (u >>> 8) % 256, (u >>> 16) % 256, (u >>> 24) % 256,
        (u >>> 32) % 256, (u >>> 40) % 256, (u >>> 48) % 256, (u >>> 56) % 256]
        ++ List.replicate 24 0, ?_, ?_, ?_⟩
    · rw [hval]
      apply nativeBytes_map_NewByte
      intro b hb
      simp only [List.mem_append, List.mem_cons, List.mem_replicate, List.mem_singleton,
        List.not_mem_nil, or_false] at hb
      rcases hb with (h | h | h | h | h | h | h | h) | h
      all_goals first | (rw [h]; exact Nat.mod_lt _ (by decide)) | (rw [h.2]; decide)
    · rfl
    · simp only [Nat.shiftRight_eq_div_pow, Finset.sum_range_succ, Finset.sum_range_zero]
      simp
      omega
  obtain ⟨r, hr, l, hl, hlen, hsum⟩ := key v hv
  refine ⟨⟨r, l, hr, hl, hlen, hsum⟩, ?_⟩
  intro w hw heq
  obtain ⟨r', hr', l', hl', _, hsum'⟩ := key w hw
  rw [hr, hr'] at heq
  have hrr : r = r' := Except.ok.inj heq
  subst hrr
  rw [hl] at hl'
  have hll : l = l' := Option.some.inj hl'
  subst hll
  rw [← hsum, hsum']

/-! ## Instances of the layout and value claims at concrete inputs -/

theorem NewBytes32FromBytesLeftPad_layout_witness :
    [0xAA, 0xBB].length ≤ 31 ∧ (∀ b ∈ [0xAA, 0xBB], b < 256) ∧
    ∃ r, NewBytes32FromBytesLeftPad [0xAA, 0xBB] = Except.ok r ∧
      (∀ (i : Nat) (h : i < [0xAA, 0xBB].length) (j : Fin 32),
        j.val = 31 - [0xAA, 0xBB].length + i →
        (r.read j).Value = Variable.int (([0xAA, 0xBB] : List Nat)[i] : Int)) ∧
      (∀ j : Fin 32, j.val < 31 - [0xAA, 0xBB].length ∨ j.val = 31 →
        (r.read j).Value = Variable.int 0) ∧
      (r.read 31).Value = Variable.int 0 :=
  ⟨by decide, by decide,
   NewBytes32FromBytesLeftPad_layout [0xAA, 0xBB] (by decide) (by decide)⟩

theorem NewBytes32FromBytesLeftPad_value_witness :
    [0xAA, 0xBB].length ≤ 31 ∧ (∀ b ∈ [0xAA, 0xBB], b < 256) ∧
    ∃ r l, NewBytes32FromBytesLeftPad [0xAA, 0xBB] = Except.ok r ∧
      nativeBytes r.val = some l ∧ l.length = 32 ∧
      bigEndianValue l = 256 * bigEndianValue [0xAA, 0xBB] ∧
      l = List.replicate (32 - ([0xAA, 0xBB] ++ [0]).length) 0 ++ ([0xAA, 0xBB] ++ [0]) ∧
      (bigEndianValue l ≠ bigEndianValue [0xAA, 0xBB] ↔ bigEndianValue [0xAA, 0xBB] ≠ 0) :=
  ⟨by decide, by decide,
   NewBytes32FromBytesLeftPad_value [0xAA, 0xBB] (by decide) (by decide)⟩

theorem NewBytes32FromU64LE_value_witness :
    0x0102030405060708 < 2 ^ 64 ∧
    (∃ r l, NewBytes32FromU64LE 0x0102030405060708 = Except.ok r ∧
      nativeBytes r.val = some l ∧ l.length = 32 ∧
      (∑ i in Finset.range 32, l.getD i 0 * 256 ^ i) = 0x0102030405060708) ∧
    (∀ w, w < 2 ^ 64 →
      NewBytes32FromU64LE 0x0102030405060708 = NewBytes32FromU64LE w →
      0x0102030405060708 = w) :=
  ⟨by decide, NewBytes32FromU64LE_value 0x0102030405060708 (by decide)⟩

theorem NewBytes32FromBytesLeftPad_leading_zero_witness :
    [0xAA].length ≤ 30 ∧ (∀ b ∈ [0xAA], b < 256) ∧
    NewBytes32FromBytesLeftPad ([0] ++ [0xAA]) = NewBytes32FromBytesLeftPad [0xAA] ∧
    (∃ r, NewBytes32FromBytesLeftPad [0xAA] = Except.ok r) :=
  ⟨by decide, by decide,
   (NewBytes32FromBytesLeftPad_leading_zero [0xAA] (by decide) (by decide)).1,
   (NewBytes32FromBytesLeftPad_leading_zero [0xAA] (by decide) (by decide)).2.1⟩

theorem NewBytes32_agrees_NewBytes_witness :
    (∀ b ∈ (⟨List.range 32, rfl⟩ : Arr32 Nat).val, b < 256) ∧
    ∃ r, NewBytes32 ⟨List.range 32, rfl⟩ = Except.ok r ∧ r.val.length = 32 ∧
      NewBytes (List.range 32) = Except.ok r.val :=
  ⟨by decide, NewBytes32_agrees_NewBytes ⟨List.range 32, rfl⟩ (by decide)⟩

end Vars
